import Mathlib

/-!
Verification of the Hyperpure catalog-scraper repository against its
natural-language specification.

The development shallow-embeds the pure extraction / normalization /
assembly logic of the Python sources:

* `src/hyperpure_scraper_comprehensive.py` (class `HyperpureComprehensiveScraper`)
* `src/scripts/hyperpure_PERFECT_scraper.py` (class `HyperpurePerfectScraper`)
* `src/hyperpure_scraper_targeted.py` (class `HyperpureTargetedScraper`)
* `src/scripts/hyperpure_detailed_scraper.py` (class `HyperpureDetailedScraper`)

Texts are Lean `String`s (lists of characters, as Python strings are
sequences of code points).  Python `float` arithmetic on the small decimal
amounts involved is embedded as exact rational arithmetic over `ℚ`.
External collaborators (the HTTP transport, the HTML/DOM parser, `urllib`
URL resolution, and CPython's hash-dependent `set` iteration order) are
modeled as explicit parameters, exactly as the specification's §6 treats
them as capabilities consumed through an interface.  Regular-expression
matching over free text is likewise a consumed capability: a fetched page
carries the per-pattern match results of the fixed regex tables of the
source, in pattern order.
-/

namespace Datascraper

/-! ## Character-list text utilities shared by all scraper variants -/

/-- Python `needle in hay` prefix test: `needle` is a prefix of `hay`. -/
def prefixOf : List Char → List Char → Bool
  | [], _ => true
  | _ :: _, [] => false
  | a :: as, b :: bs => a = b && prefixOf as bs

/-- Python substring containment `needle in hay` over character lists. -/
def hasSub (needle : List Char) : List Char → Bool
  | [] => needle.isEmpty
  | c :: t => prefixOf needle (c :: t) || hasSub needle t

/-- Python `s.lower()`: character-wise lower-casing. -/
def lowerStr (s : String) : String := String.mk (s.toList.map Char.toLower)

/-- Python `s.strip()`: drop leading and trailing whitespace characters. -/
def stripChars (l : List Char) : List Char :=
  ((l.dropWhile Char.isWhitespace).reverse.dropWhile Char.isWhitespace).reverse

/-- Python `re.sub(r'\s+', ' ', s)`: collapse every maximal run of
whitespace to a single space.  The flag records whether the previous
character was whitespace (making the recursion structural). -/
def collapseWs : Bool → List Char → List Char
  | _, [] => []
  | prev, c :: t =>
    if c.isWhitespace then
      if prev then collapseWs true t else ' ' :: collapseWs true t
    else c :: collapseWs false t

/-- Python `s.replace('"', '""')`: CSV quote escaping by doubling. -/
def escQuotes : List Char → List Char
  | [] => []
  | c :: t => if c = '"' then '"' :: '"' :: escQuotes t else c :: escQuotes t

/-- The `clean_text` helper shared verbatim by the comprehensive, targeted
and PERFECT scrapers: empty text maps to the empty string, otherwise the
text is stripped, whitespace runs are collapsed to single spaces, and `"`
is doubled for CSV safety. -/
def clean_text (s : String) : String :=
  if s = "" then ""
  else String.mk (escQuotes (collapseWs false (stripChars s.toList)))

/-- Python `s.split(sep)[0]`: the prefix of `s` before the first occurrence
of the (non-empty) separator `pat`; the whole of `s` when `pat` is absent. -/
def takeBeforeSub (pat : List Char) : List Char → List Char
  | [] => []
  | c :: t => if prefixOf pat (c :: t) then [] else c :: takeBeforeSub pat t

/-- Python `str.title()` on the single lowercase keywords of the tag
vocabulary: upper-case the first character. -/
def titleCase (s : String) : String :=
  match s.toList with
  | [] => ""
  | c :: t => String.mk (c.toUpper :: t)

/-- Python `";".join(l)`. -/
def joinSemi : List String → String
  | [] => ""
  | [s] => s
  | s :: rest => s ++ ";" ++ joinSemi rest

/-! ## Price extraction (`extract_price_info`)

`HyperpureComprehensiveScraper.extract_price_info` and
`HyperpureTargetedScraper.extract_price_info` share one body: scan the text
with `re.findall(r'₹(\d+(?:,\d+)*(?:\.\d+)?)', …)`, take the first match as
the current price, the second (when present) as the original price, and
compute a discount percentage only when the original numerically exceeds
the current price.  The scanner below implements that regex directly:
left-to-right, non-overlapping, greedy; each match is the capture group
(digits, optional comma groups, optional decimal part). -/

/-- Greedy `(?:,\d+)*` part of the price regex: consume `,`-digit groups as
long as a comma is immediately followed by a digit.  Returns the consumed
characters and the rest; `fuel` bounds the recursion (callers pass the text
length, which always suffices). -/
def commaPart : ℕ → List Char → List Char × List Char
  | 0, l => ([], l)
  | fuel + 1, l =>
    match l with
    | ',' :: rest =>
      match rest with
      | d :: _ =>
        if d.isDigit then
          let ds := rest.takeWhile Char.isDigit
          let (more, r2) := commaPart fuel (rest.dropWhile Char.isDigit)
          (',' :: ds ++ more, r2)
        else ([], l)
      | [] => ([], l)
    | _ => ([], l)

/-- Optional `(?:\.\d+)?` part of the price regex. -/
def decPart (l : List Char) : List Char × List Char :=
  match l with
  | '.' :: rest =>
    if (match rest with | d :: _ => d.isDigit | [] => false) then
      ('.' :: rest.takeWhile Char.isDigit, rest.dropWhile Char.isDigit)
    else ([], l)
  | _ => ([], l)

/-- Fueled scanner for `re.findall(r'₹(\d+(?:,\d+)*(?:\.\d+)?)', text)`:
at a `₹` immediately followed by a digit, emit the greedy capture and
resume after it; otherwise move one character right. -/
def priceScan : ℕ → List Char → List (List Char)
  | 0, _ => []
  | _ + 1, [] => []
  | fuel + 1, c :: t =>
    if c = '₹' then
      let ds := t.takeWhile Char.isDigit
      if ds.isEmpty then priceScan fuel t
      else
        let (cg, r1) := commaPart fuel (t.dropWhile Char.isDigit)
        let (dp, r2) := decPart r1
        (ds ++ cg ++ dp) :: priceScan fuel r2
    else priceScan fuel t

/-- All price captures of a text, in document order. -/
def findallPrice (s : String) : List (List Char) :=
  priceScan s.toList.length s.toList

/-- Value of digit characters read in base 10. -/
def digitsToNat (l : List Char) : ℕ :=
  l.foldl (fun n c => 10 * n + (c.toNat - 48)) 0

/-- Python `float(re.sub(r'[₹,]', '', m))` on a price capture `m`: drop the
commas and read the decimal number.  Exact rationals stand in for IEEE
doubles (the amounts involved are short decimal literals). -/
def parseDecimal (m : List Char) : ℚ :=
  let l := m.filter (fun c => c != ',')
  let ip := l.takeWhile (fun c => c != '.')
  let fp := (l.dropWhile (fun c => c != '.')).drop 1
  mkRat (digitsToNat ip * 10 ^ fp.length + digitsToNat fp) (10 ^ fp.length)

/-- Floor of a rational (denominators are positive, so flooring division of
the numerator by the denominator). -/
def ratFloor (x : ℚ) : ℤ := x.num.fdiv (x.den : ℤ)

/-- Round a rational to the nearest integer, ties to even — the rounding
`f"{x:.1f}"` applies to the exactly-representable values at hand. -/
def roundHalfEven (x : ℚ) : ℤ :=
  let f := ratFloor x
  let r := x - (f : ℚ)
  if r < 1 / 2 then f
  else if 1 / 2 < r then f + 1
  else if f % 2 = 0 then f else f + 1

/-- Python `f"{q:.1f}"` for the nonnegative percentages at hand: one digit
after the decimal point. -/
def fmt1 (q : ℚ) : String :=
  let n := roundHalfEven (q * 10)
  toString (n / 10) ++ "." ++ toString (n % 10)

/-- Rebuild the displayed price `f"₹{m}"` from a capture. -/
def rupeeStr (m : List Char) : String := "₹" ++ String.mk m

/-- Shared body of `HyperpureComprehensiveScraper.extract_price_info`
(lines 177–206) and `HyperpureTargetedScraper.extract_price_info`
(lines 151–180): first capture is the current price; a second capture is
recorded as the original price; the discount is computed only when the
original value exceeds the current value. -/
def extract_price_info (priceText : String) : String × String × String :=
  if priceText = "" then ("", "", "")
  else
    match findallPrice priceText with
    | [] => ("", "", "")
    | [m] => (rupeeStr m, "", "")
    | m0 :: m1 :: _ =>
      let c := parseDecimal m0
      let o := parseDecimal m1
      (rupeeStr m0, rupeeStr m1,
        if o > c then fmt1 ((o - c) / o * 100) ++ "%" else "")

end Datascraper

namespace Datascraper

/-! ## Claims C1 and C2: price extraction

The witnesses evaluate the embedded code on concrete inputs; the rational
operations of Batteries are `@[irreducible]` by default, which only blocks
kernel evaluation, so they are made semireducible for this section. -/

section PriceClaims

attribute [local semireducible] Rat.sub Rat.mul Rat.add Rat.inv

lemma findallPrice_empty : findallPrice "" = [] := rfl

/-- C1.  For every input text containing at least two currency-amount
tokens whose first token `A` is numerically less than the second token `B`,
price extraction returns current price `A`, original price `B`, and
discount `(B − A) / B × 100` rounded to one decimal place and formatted
with a trailing `%`. -/
theorem price_extraction_discount (s : String) (m0 m1 : List Char)
    (rest : List (List Char)) (hscan : findallPrice s = m0 :: m1 :: rest)
    (hlt : parseDecimal m0 < parseDecimal m1) :
    extract_price_info s =
      (rupeeStr m0, rupeeStr m1,
        fmt1 ((parseDecimal m1 - parseDecimal m0) / parseDecimal m1 * 100) ++ "%") := by
  have hne : s ≠ "" := by
    intro h
    rw [h, findallPrice_empty] at hscan
    exact List.noConfusion hscan
  unfold extract_price_info
  rw [if_neg hne, hscan]
  simp [hlt]

/-- C1 witness: the text `"₹199 ... ₹249"` yields current `₹199`,
original `₹249`, discount `20.1%`. -/
theorem price_extraction_discount_witness :
    findallPrice "₹199 ... ₹249" = ["199".toList, "249".toList] ∧
    extract_price_info "₹199 ... ₹249" = ("₹199", "₹249", "20.1%") := by
  have h : findallPrice "₹199 ... ₹249" = ["199".toList, "249".toList] := by decide
  refine ⟨h, ?_⟩
  have := price_extraction_discount "₹199 ... ₹249" "199".toList "249".toList [] h
    (by decide)
  rw [this]
  decide

/-- C2 counterexample: on `"₹249 ... ₹199"` the code returns the second
token `₹199` as the original price even though it is numerically smaller
than the current price — the claim asserts the original price is left
unset (empty) in this case. -/
theorem price_extraction_second_le_counterexample :
    extract_price_info "₹249 ... ₹199" = ("₹249", "₹199", "") ∧
    ("₹199" : String) ≠ "" := by
  constructor
  · decide
  · decide

/-- C2 amended.  For every input text containing two currency-amount tokens
whose second token is numerically less than or equal to the first, price
extraction returns the first token as the current price, records the second
token as the original price, and leaves only the discount unset (empty). -/
theorem price_extraction_no_discount (s : String) (m0 m1 : List Char)
    (rest : List (List Char)) (hscan : findallPrice s = m0 :: m1 :: rest)
    (hle : parseDecimal m1 ≤ parseDecimal m0) :
    extract_price_info s = (rupeeStr m0, rupeeStr m1, "") := by
  have hne : s ≠ "" := by
    intro h
    rw [h, findallPrice_empty] at hscan
    exact List.noConfusion hscan
  unfold extract_price_info
  rw [if_neg hne, hscan]
  simp [not_lt.mpr hle]

/-- C2 amended witness: `"₹249 ... ₹199"` yields current `₹249`, original
`₹199` and no discount. -/
theorem price_extraction_no_discount_witness :
    findallPrice "₹249 ... ₹199" = ["249".toList, "199".toList] ∧
    extract_price_info "₹249 ... ₹199" = ("₹249", "₹199", "") := by
  have h : findallPrice "₹249 ... ₹199" = ["249".toList, "199".toList] := by decide
  exact ⟨h, price_extraction_no_discount "₹249 ... ₹199" "249".toList "199".toList [] h
    (by decide)⟩

end PriceClaims

/-! ## Claim C3: the retrying fetch (`safe_request`)

`HyperpureComprehensiveScraper.safe_request` (lines 143–162) and
`HyperpurePerfectScraper.safe_request` (lines 112–127) loop
`for attempt in range(max_retries)`, returning the parsed content of the
first successful attempt; every exception of an attempt is caught, and on
the last attempt `None` is returned instead of re-raising, so no exception
crosses the caller boundary.  The network is modeled as a function from
the attempt index to `Option α`: `some` is a parsed response, `none` an
attempt that raised (transport error, bad HTTP status, or timeout).  The
politeness and backoff sleeps have no observable effect on the result and
are not modeled. -/

/-- Loop of `safe_request`, parameterized by the index of the attempt about
to run and the number of attempts left. -/
def safeRequestFrom (fetch : ℕ → Option α) : ℕ → ℕ → Option α
  | _, 0 => none
  | attempt, n + 1 =>
    match fetch attempt with
    | some c => some c
    | none => safeRequestFrom fetch (attempt + 1) n

/-- The `safe_request` method: run up to `max_retries` attempts starting at
attempt 0. -/
def safe_request (fetch : ℕ → Option α) (max_retries : ℕ) : Option α :=
  safeRequestFrom fetch 0 max_retries

/-- Number of attempts `safe_request` actually performs, with the same
recursion structure as the loop. -/
def attemptsUsedFrom (fetch : ℕ → Option α) : ℕ → ℕ → ℕ
  | _, 0 => 0
  | attempt, n + 1 =>
    match fetch attempt with
    | some _ => 1
    | none => 1 + attemptsUsedFrom fetch (attempt + 1) n

/-- Attempts performed by `safe_request fetch max_retries`. -/
def attemptsUsed (fetch : ℕ → Option α) (max_retries : ℕ) : ℕ :=
  attemptsUsedFrom fetch 0 max_retries

lemma attemptsUsedFrom_le (fetch : ℕ → Option α) :
    ∀ n s, attemptsUsedFrom fetch s n ≤ n := by
  intro n
  induction n with
  | zero => intro s; simp [attemptsUsedFrom]
  | succ m ih =>
    intro s
    unfold attemptsUsedFrom
    cases h : fetch s with
    | some c => simp [h]
    | none =>
      simp only [h]
      have := ih (s + 1)
      omega

lemma safeRequestFrom_first_success (fetch : ℕ → Option α) :
    ∀ n s k, k < n → (∀ j, j < k → fetch (s + j) = none) →
      fetch (s + k) ≠ none →
      safeRequestFrom fetch s n = fetch (s + k) ∧
        attemptsUsedFrom fetch s n = k + 1 := by
  intro n
  induction n with
  | zero => intro s k hk; omega
  | succ m ih =>
    intro s k hk hpre hsucc
    cases k with
    | zero =>
      simp only [Nat.add_zero] at hsucc ⊢
      unfold safeRequestFrom attemptsUsedFrom
      cases h : fetch s with
      | some c => simp [h]
      | none => exact absurd h hsucc
    | succ k' =>
      have h0 : fetch s = none := by
        have := hpre 0 (Nat.succ_pos k')
        simpa using this
      unfold safeRequestFrom attemptsUsedFrom
      simp only [h0]
      have hpre' : ∀ j, j < k' → fetch (s + 1 + j) = none := by
        intro j hj
        have := hpre (j + 1) (by omega)
        simpa [Nat.add_assoc, Nat.add_comm 1 j] using this
      have hsucc' : fetch (s + 1 + k') ≠ none := by
        have : s + 1 + k' = s + (k' + 1) := by omega
        rw [this]; exact hsucc
      have := ih (s + 1) k' (by omega) hpre' hsucc'
      have harith : s + 1 + k' = s + (k' + 1) := by omega
      rw [harith] at this
      exact ⟨this.1, by omega⟩

lemma safeRequestFrom_all_fail (fetch : ℕ → Option α) :
    ∀ n s, (∀ j, j < n → fetch (s + j) = none) →
      safeRequestFrom fetch s n = none ∧ attemptsUsedFrom fetch s n = n := by
  intro n
  induction n with
  | zero => intro s _; simp [safeRequestFrom, attemptsUsedFrom]
  | succ m ih =>
    intro s hall
    have h0 : fetch s = none := by simpa using hall 0 (Nat.succ_pos m)
    unfold safeRequestFrom attemptsUsedFrom
    simp only [h0]
    have hall' : ∀ j, j < m → fetch (s + 1 + j) = none := by
      intro j hj
      have := hall (j + 1) (by omega)
      simpa [Nat.add_assoc, Nat.add_comm 1 j] using this
    have := ih (s + 1) hall'
    exact ⟨this.1, by omega⟩

/-- C3.  For every fetch behavior and every `max_retries ≥ 1`,
`safe_request` performs at most `max_retries` attempts; if some attempt
`k < max_retries` is the first to succeed, it returns that attempt's parsed
content after exactly `k + 1` attempts; and if every attempt fails it
returns `none` to the caller (no exception escapes: the model is a total
function into `Option`). -/
theorem safe_request_retry_contract (fetch : ℕ → Option α) (max_retries : ℕ)
    (_hpos : 1 ≤ max_retries) :
    attemptsUsed fetch max_retries ≤ max_retries ∧
    (∀ k, k < max_retries → (∀ j, j < k → fetch j = none) → fetch k ≠ none →
      safe_request fetch max_retries = fetch k ∧
        attemptsUsed fetch max_retries = k + 1) ∧
    ((∀ j, j < max_retries → fetch j = none) →
      safe_request fetch max_retries = none ∧
        attemptsUsed fetch max_retries = max_retries) := by
  refine ⟨attemptsUsedFrom_le fetch max_retries 0, ?_, ?_⟩
  · intro k hk hpre hsucc
    have := safeRequestFrom_first_success fetch max_retries 0 k hk
      (by simpa using hpre) (by simpa using hsucc)
    simpa [safe_request, attemptsUsed] using this
  · intro hall
    have := safeRequestFrom_all_fail fetch max_retries 0 (by simpa using hall)
    simpa [safe_request, attemptsUsed] using this

/-! ## Data model: the `Product` dataclass of the comprehensive scraper -/

/-- The `Product` dataclass of `hyperpure_scraper_comprehensive.py`
(lines 42–91), with the same fields and default values. -/
structure Product where
  product_name : String := ""
  category : String := ""
  subcategory : String := ""
  price_current : String := ""
  price_original : String := ""
  discount_percentage : String := ""
  product_description : String := ""
  product_image_url : String := ""
  product_page_url : String := ""
  availability_status : String := ""
  brand_name : String := "Hyperpure"
  unit_size : String := ""
  packaging_type : String := ""
  nutritional_info : String := ""
  ingredients : String := ""
  product_id : String := ""
  sku_code : String := ""
  rating : String := ""
  review_count : String := ""
  tags : String := ""
  scraped_timestamp : String := ""
deriving DecidableEq

/-- An `<img>` element as consulted by the detail scraper: its `src` and
`data-src` attributes (`none` when the attribute is absent). -/
structure Img where
  src : Option String := none
  dataSrc : Option String := none
deriving DecidableEq

/-- A fetched and parsed detail page, as consumed by
`HyperpureComprehensiveScraper.scrape_product_details`.  DOM access and
regex matching over the page text are external capabilities (spec §6), so
the page carries the query results the method reads: the `<title>` and
`<h1>` texts (`none` when the tag is absent), the full visible text, the
`<img>` elements in document order, and the per-pattern results of the
fixed regex tables applied to the page text, in pattern order
(`descMatches`: `re.findall` for each of the 4 `desc_patterns`;
`ingMatches`: group 1 of `re.search` for each of the 3
`ingredients_patterns`; `unitMatches`: group 1 of `re.search` for each of
the 4 `size_patterns` of `extract_unit_size`). -/
structure Page where
  titleText : Option String := none
  h1Text : Option String := none
  pageText : String := ""
  images : List Img := []
  descMatches : List (List String) := []
  ingMatches : List (Option String) := []
  unitMatches : List (Option String) := []

/-- External collaborators of the detail scraper: CPython's
hash-dependent iteration order of `list(set(·))`, `urllib`'s `urljoin`,
and `urlparse(·).path`. -/
structure Env where
  pysetOrder : List String → List String
  urljoin : String → String → String
  urlPath : String → String

/-- The scraper's `base_url`. -/
def base_url : String := "https://www.hyperpure.com"

/-! ## Field pickers of `scrape_product_details` (lines 339–418) -/

/-- Python `max(matches, key=len)`: the first longest element. -/
def maxByLen (l : List String) : Option String :=
  match l with
  | [] => none
  | m :: rest => some (rest.foldl (fun acc x => if acc.length < x.length then x else acc) m)

/-- Description selection (lines 363–370): for each pattern's match list in
order, take the longest match; if its raw length is strictly between 30 and
500 the cleaned text is kept and the chain stops, otherwise the next
pattern is tried. -/
def pickDesc : List (List String) → Option String
  | [] => none
  | ms :: rest =>
    match maxByLen ms with
    | none => pickDesc rest
    | some best =>
      if 30 < best.length ∧ best.length < 500 then some (clean_text best)
      else pickDesc rest

/-- Ingredient selection (lines 391–397): first pattern whose match,
cleaned, has length strictly between 10 and 200; otherwise keep trying. -/
def pickIng : List (Option String) → Option String
  | [] => none
  | none :: rest => pickIng rest
  | some m :: rest =>
    let t := clean_text m
    if 10 < t.length ∧ t.length < 200 then some t else pickIng rest

/-- Python `img.get('src') or img.get('data-src')` followed by the
truthiness test `if src and …`. -/
def chooseSrc (i : Img) : Option String :=
  let a := i.src.getD ""
  let b := i.dataSrc.getD ""
  let s := if a ≠ "" then a else b
  if s ≠ "" then some s else none

/-- Recognized image-file extensions (line 380). -/
def imageExts : List String := [".jpg", ".jpeg", ".png", ".webp"]

/-- Image selection (lines 377–382): the first image whose source names a
hyperpure domain and a recognized extension, resolved against the base
URL. -/
def pickImage (env : Env) : List Img → Option String
  | [] => none
  | i :: rest =>
    match chooseSrc i with
    | some s =>
      if (hasSub "assets.hyperpure.com".toList s.toList
            || hasSub "hyperpure.com".toList s.toList)
          && imageExts.any (fun e => hasSub e.toList s.toList) then
        some (env.urljoin base_url s)
      else pickImage env rest
    | none => pickImage env rest

/-- The fixed tag vocabulary (line 400). -/
def feature_keywords : List String :=
  ["premium", "imported", "handcrafted", "frozen", "fresh", "organic", "natural", "quality"]

/-- Keyword tag collection (lines 401–405): scan the lowercased page text
for each vocabulary keyword in order, collecting the title-cased keyword
on a hit. -/
def comp_keyword_tags (pageText : String) : List String :=
  let pl := (lowerStr pageText).toList
  feature_keywords.foldl
    (fun acc kw => if hasSub kw.toList pl then acc ++ [titleCase kw] else acc) []

/-- Characters admitted by the SKU capture class `[a-zA-Z0-9\-_]`. -/
def isSkuChar (c : Char) : Bool := c.isAlpha || c.isDigit || c = '-' || c = '_'

/-- The SKU regex `re.search(r'/([a-zA-Z0-9\-_]+)(?:\?|$)', path)`
(line 412): the first `/` whose following maximal run of SKU characters is
non-empty and ends at a `?` or at the end of the path. -/
def skuSearch : List Char → Option (List Char)
  | [] => none
  | c :: t =>
    if c = '/' then
      let run := t.takeWhile isSkuChar
      if !run.isEmpty
          && (match t.dropWhile isSkuChar with
              | [] => true
              | '?' :: _ => true
              | _ => false) then
        some run
      else skuSearch t
    else skuSearch t

/-- The `extract_unit_size` regex chain (lines 208–226), over the
page-provided per-pattern search results: first match wins, stripped of
surrounding whitespace; no match yields the empty string. -/
def extract_unit_size_from : List (Option String) → String
  | [] => ""
  | some m :: _ => String.mk (stripChars m.toList)
  | none :: rest => extract_unit_size_from rest

/-- Detail-stage enrichment of a listing draft: the body of
`HyperpureComprehensiveScraper.scrape_product_details` after a successful
fetch (lines 339–418), field by field:
title fallback for an empty name, `h1` override for a strictly longer
stripped heading, description / image / ingredients / tags / SKU pickers,
and the price and unit-size extractions gated on the draft fields being
empty. -/
def enrich (env : Env) (p : Product) (page : Page) : Product :=
  let name0 :=
    if p.product_name = "" then
      match page.titleText with
      | some t =>
        clean_text (String.mk (takeBeforeSub " Wholesalers".toList
          (takeBeforeSub "|".toList t.toList)))
      | none => p.product_name
    else p.product_name
  let name1 :=
    match page.h1Text with
    | some h =>
      if name0.length < (stripChars h.toList).length then clean_text h else name0
    | none => name0
  let desc :=
    match pickDesc page.descMatches with
    | some d => d
    | none => p.product_description
  let priceTriple :=
    if p.price_current = "" then extract_price_info page.pageText
    else (p.price_current, p.price_original, p.discount_percentage)
  let img :=
    match pickImage env page.images with
    | some s => s
    | none => p.product_image_url
  let ing :=
    match pickIng page.ingMatches with
    | some t => t
    | none => p.ingredients
  let kwTags := comp_keyword_tags page.pageText
  let tagsField :=
    if kwTags ≠ [] then joinSemi (env.pysetOrder kwTags) else p.tags
  let sku :=
    match skuSearch (env.urlPath p.product_page_url).toList with
    | some run => String.mk run
    | none => p.sku_code
  let usize :=
    if p.unit_size = "" then extract_unit_size_from page.unitMatches
    else p.unit_size
  { p with
    product_name := name1
    product_description := desc
    price_current := priceTriple.1
    price_original := priceTriple.2.1
    discount_percentage := priceTriple.2.2
    product_image_url := img
    ingredients := ing
    tags := tagsField
    sku_code := sku
    unit_size := usize }

/-- The full `scrape_product_details` method (lines 328–423): skip drafts
without a URL and URLs already in the visited set `scraped_urls`; on fetch
failure return the draft unchanged; on success record the URL as visited
and enrich the draft.  The third component counts `safe_request` calls
made by this invocation. -/
def scrape_product_details (env : Env) (fetch : String → Option Page)
    (p : Product) (visited : List String) : Product × List String × ℕ :=
  if p.product_page_url = "" ∨ p.product_page_url ∈ visited then (p, visited, 0)
  else
    match fetch p.product_page_url with
    | none => (p, visited, 1)
    | some page => (enrich env p page, p.product_page_url :: visited, 1)

/-! ## Claims C4 and C10: visited-set discipline of `scrape_product_details` -/

/-- C4.  Within one run the visited-URL set grows monotonically (every URL
in `scraped_urls` before a `scrape_product_details` call is still in it
afterwards), and a call whose URL is already visited returns immediately:
the draft and the visited set are unchanged and no fetch is performed. -/
theorem scrape_details_visited_once (env : Env) (fetch : String → Option Page)
    (p : Product) (visited : List String) :
    visited ⊆ (scrape_product_details env fetch p visited).2.1 ∧
    (p.product_page_url ∈ visited →
      scrape_product_details env fetch p visited = (p, visited, 0)) := by
  constructor
  · unfold scrape_product_details
    split
    · exact fun a ha => ha
    · cases h : fetch p.product_page_url with
      | none => simp [h]
      | some page => simp only [h]; exact fun a ha => List.mem_cons_of_mem _ ha
  · intro hmem
    unfold scrape_product_details
    rw [if_pos (Or.inr hmem)]

/-- Sample enrichment environment: `list(set(·))` realized as order-keeping
deduplication, `urljoin` as path concatenation below the base, `urlparse`
path extraction as the identity on the path-only URLs used. -/
def envW : Env :=
  { pysetOrder := List.dedup
    urljoin := fun _ r => "https://www.hyperpure.com/" ++ r
    urlPath := fun s => s }

/-- Sample listing draft for the visited-set claims. -/
def draftW : Product := { product_page_url := "/in/walnut-brownie-frozen" }

/-- C4 witness: with `/in/walnut-brownie-frozen` already visited, the call
leaves the draft and the visited set unchanged and performs no fetch. -/
theorem scrape_details_visited_once_witness :
    ["/in/walnut-brownie-frozen"] ⊆
      (scrape_product_details envW (fun _ => none) draftW
        ["/in/walnut-brownie-frozen"]).2.1 ∧
    scrape_product_details envW (fun _ => none) draftW
      ["/in/walnut-brownie-frozen"] = (draftW, ["/in/walnut-brownie-frozen"], 0) := by
  have h := scrape_details_visited_once envW (fun _ => none) draftW
    ["/in/walnut-brownie-frozen"]
  exact ⟨h.1, h.2 (List.mem_singleton.mpr rfl)⟩

/-- C10.  If the fetch of the detail page fails (`safe_request` returned
`None`), `scrape_product_details` returns the record completely unchanged,
the visited set is unchanged, and a URL not yet visited is still not
visited afterwards — it remains eligible for a fetch attempt in a later
call. -/
theorem scrape_details_fetch_failure (env : Env) (fetch : String → Option Page)
    (p : Product) (visited : List String)
    (hfail : fetch p.product_page_url = none) :
    (scrape_product_details env fetch p visited).1 = p ∧
    (scrape_product_details env fetch p visited).2.1 = visited ∧
    (p.product_page_url ∉ visited →
      p.product_page_url ∉ (scrape_product_details env fetch p visited).2.1) := by
  unfold scrape_product_details
  split
  · exact ⟨rfl, rfl, fun h => h⟩
  · rw [hfail]
    exact ⟨rfl, rfl, fun h => h⟩

/-- C10 witness: a failing fetch for the sample draft leaves the record and
the empty visited set unchanged, and the URL stays unvisited. -/
theorem scrape_details_fetch_failure_witness :
    (scrape_product_details envW (fun _ => none) draftW []).1 = draftW ∧
    (scrape_product_details envW (fun _ => none) draftW []).2.1 = [] ∧
    "/in/walnut-brownie-frozen" ∉
      (scrape_product_details envW (fun _ => none) draftW []).2.1 := by
  have h := scrape_details_fetch_failure envW (fun _ => none) draftW [] rfl
  exact ⟨h.1, h.2.1, h.2.2 (by simp)⟩

/-! ## Claim C5: the merge rule of the record assembler -/

lemma str_ne_empty_of_length {s : String} (h : 0 < s.length) : s ≠ "" := by
  intro hs
  rw [hs] at h
  simp at h

lemma mk_ne_empty {l : List Char} (h : l ≠ []) : String.mk l ≠ "" := by
  intro hs
  exact h (congrArg String.data hs)

lemma mem_dropWhile_of_mem {p : Char → Bool} {c : Char} {l : List Char}
    (hmem : c ∈ l) (hc : p c = false) : c ∈ l.dropWhile p := by
  have hsplit := List.takeWhile_append_dropWhile (p := p) (l := l)
  rw [← hsplit] at hmem
  rcases List.mem_append.mp hmem with h | h
  · have := List.mem_takeWhile_imp h
    rw [hc] at this
    exact absurd this (by simp)
  · exact h

lemma stripChars_ne_nil {l : List Char} {c : Char}
    (hmem : c ∈ l) (hc : c.isWhitespace = false) : stripChars l ≠ [] := by
  unfold stripChars
  intro h
  have h1 : c ∈ (l.dropWhile Char.isWhitespace).reverse.dropWhile Char.isWhitespace := by
    apply mem_dropWhile_of_mem _ hc
    rw [List.mem_reverse]
    exact mem_dropWhile_of_mem hmem hc
  rw [List.reverse_eq_nil_iff.mp h] at h1
  exact absurd h1 (List.not_mem_nil c)

lemma collapseWs_false_ne_nil {l : List Char} (h : l ≠ []) :
    collapseWs false l ≠ [] := by
  cases l with
  | nil => exact absurd rfl h
  | cons c t =>
    by_cases hw : c.isWhitespace = true
    · simp [collapseWs, hw]
    · simp [collapseWs, hw]

lemma escQuotes_ne_nil {l : List Char} (h : l ≠ []) : escQuotes l ≠ [] := by
  cases l with
  | nil => exact absurd rfl h
  | cons c t =>
    by_cases hc : c = '"'
    · simp [escQuotes, hc]
    · simp [escQuotes, hc]

lemma clean_text_ne_empty {s : String} {c : Char}
    (hmem : c ∈ s.toList) (hc : c.isWhitespace = false) : clean_text s ≠ "" := by
  have hs : s ≠ "" := by
    intro h
    rw [h] at hmem
    exact absurd hmem (List.not_mem_nil c)
  unfold clean_text
  rw [if_neg hs]
  exact mk_ne_empty (escQuotes_ne_nil (collapseWs_false_ne_nil (stripChars_ne_nil hmem hc)))

lemma foldl_keep_longest_mem (rest : List String) :
    ∀ acc : String,
      rest.foldl (fun acc x => if acc.length < x.length then x else acc) acc = acc ∨
      rest.foldl (fun acc x => if acc.length < x.length then x else acc) acc ∈ rest := by
  induction rest with
  | nil => intro acc; left; rfl
  | cons x xs ih =>
    intro acc
    simp only [List.foldl_cons]
    by_cases h : acc.length < x.length
    · rw [if_pos h]
      rcases ih x with h1 | h1
      · right; rw [h1]; exact List.mem_cons_self x xs
      · right; exact List.mem_cons_of_mem x h1
    · rw [if_neg h]
      rcases ih acc with h1 | h1
      · left; exact h1
      · right; exact List.mem_cons_of_mem x h1

lemma maxByLen_mem {l : List String} {b : String} (h : maxByLen l = some b) : b ∈ l := by
  cases l with
  | nil => exact absurd h (by simp [maxByLen])
  | cons m rest =>
    have hb : rest.foldl (fun acc x => if acc.length < x.length then x else acc) m = b := by
      simpa [maxByLen] using h
    rcases foldl_keep_longest_mem rest m with h1 | h1
    · have : b = m := by rw [← hb, h1]
      rw [this]
      exact List.mem_cons_self m rest
    · rw [hb] at h1
      exact List.mem_cons_of_mem m h1

lemma pickDesc_sound {mss : List (List String)} {d : String}
    (h : pickDesc mss = some d) :
    ∃ ms ∈ mss, ∃ b ∈ ms, 30 < b.length ∧ b.length < 500 ∧ d = clean_text b := by
  induction mss with
  | nil => exact absurd h (by simp [pickDesc])
  | cons ms rest ih =>
    cases hmx : maxByLen ms with
    | none =>
      have h' : pickDesc rest = some d := by
        rw [pickDesc, hmx] at h
        exact h
      obtain ⟨ms', hms', rest'⟩ := ih h'
      exact ⟨ms', List.mem_cons_of_mem ms hms', rest'⟩
    | some best =>
      have h' : (if 30 < best.length ∧ best.length < 500
          then some (clean_text best) else pickDesc rest) = some d := by
        rw [pickDesc, hmx] at h
        exact h
      by_cases hlen : 30 < best.length ∧ best.length < 500
      · rw [if_pos hlen] at h'
        refine ⟨ms, List.mem_cons_self ms rest, best, maxByLen_mem hmx, hlen.1, hlen.2, ?_⟩
        exact (Option.some_injective _ h').symm
      · rw [if_neg hlen] at h'
        obtain ⟨ms', hms', rest'⟩ := ih h'
        exact ⟨ms', List.mem_cons_of_mem ms hms', rest'⟩

lemma pickIng_sound {ms : List (Option String)} {t : String}
    (h : pickIng ms = some t) : 10 < t.length := by
  induction ms with
  | nil => exact absurd h (by simp [pickIng])
  | cons o rest ih =>
    cases o with
    | none => exact ih (by simpa [pickIng] using h)
    | some m =>
      have h' : (if 10 < (clean_text m).length ∧ (clean_text m).length < 200
          then some (clean_text m) else pickIng rest) = some t := h
      by_cases hlen : 10 < (clean_text m).length ∧ (clean_text m).length < 200
      · rw [if_pos hlen] at h'
        rw [← Option.some_injective _ h']
        exact hlen.1
      · rw [if_neg hlen] at h'
        exact ih h'

lemma chooseSrc_sound {i : Img} {r : String} (h : chooseSrc i = some r) : r ≠ "" := by
  unfold chooseSrc at h
  set s := if i.src.getD "" ≠ "" then i.src.getD "" else i.dataSrc.getD "" with hs
  by_cases hne : s ≠ ""
  · rw [if_pos hne] at h
    rw [← Option.some_injective _ h]
    exact hne
  · rw [if_neg hne] at h
    exact absurd h (by simp)

lemma pickImage_sound {env : Env} {l : List Img} {s : String}
    (h : pickImage env l = some s) :
    ∃ r, r ≠ "" ∧ s = env.urljoin base_url r := by
  induction l with
  | nil => exact absurd h (by simp [pickImage])
  | cons i rest ih =>
    cases hc : chooseSrc i with
    | none =>
      have h' : pickImage env rest = some s := by
        rw [pickImage, hc] at h
        exact h
      exact ih h'
    | some r =>
      have h' : (if ((hasSub "assets.hyperpure.com".toList r.toList
            || hasSub "hyperpure.com".toList r.toList)
          && imageExts.any (fun e => hasSub e.toList r.toList)) = true
          then some (env.urljoin base_url r) else pickImage env rest) = some s := by
        rw [pickImage, hc] at h
        exact h
      by_cases hcond : ((hasSub "assets.hyperpure.com".toList r.toList
            || hasSub "hyperpure.com".toList r.toList)
          && imageExts.any (fun e => hasSub e.toList r.toList)) = true
      · rw [if_pos hcond] at h'
        exact ⟨r, chooseSrc_sound hc, (Option.some_injective _ h').symm⟩
      · rw [if_neg hcond] at h'
        exact ih h'

lemma skuSearch_sound {l : List Char} {run : List Char}
    (h : skuSearch l = some run) : run ≠ [] := by
  induction l with
  | nil => exact absurd h (by simp [skuSearch])
  | cons c t ih =>
    by_cases hc : c = '/'
    · have h' : (if (!(t.takeWhile isSkuChar).isEmpty
          && (match t.dropWhile isSkuChar with
              | [] => true
              | '?' :: _ => true
              | _ => false)) = true
          then some (t.takeWhile isSkuChar) else skuSearch t) = some run := by
        rw [skuSearch, if_pos hc] at h
        exact h
      by_cases hcond : (!(t.takeWhile isSkuChar).isEmpty
          && (match t.dropWhile isSkuChar with
              | [] => true
              | '?' :: _ => true
              | _ => false)) = true
      · rw [if_pos hcond] at h'
        have hrun : t.takeWhile isSkuChar = run := Option.some_injective _ h'
        have hne : (!(t.takeWhile isSkuChar).isEmpty) = true :=
          (Bool.and_eq_true _ _ |>.mp hcond).1
        rw [hrun] at hne
        intro hnil
        rw [hnil] at hne
        simp at hne
      · rw [if_neg hcond] at h'
        exact ih h'
    · have h' : skuSearch t = some run := by
        rw [skuSearch, if_neg hc] at h
        exact h
      exact ih h'

lemma comp_keyword_tags_shape {pageText : String} {x : String}
    (h : x ∈ comp_keyword_tags pageText) :
    ∃ kw ∈ feature_keywords, x = titleCase kw := by
  have aux : ∀ (kws : List String) (acc : List String),
      x ∈ kws.foldl (fun acc kw =>
        if hasSub kw.toList (lowerStr pageText).toList then acc ++ [titleCase kw] else acc) acc →
      x ∈ acc ∨ ∃ kw ∈ kws, x = titleCase kw := by
    intro kws
    induction kws with
    | nil => intro acc hx; left; exact hx
    | cons kw rest ih =>
      intro acc hx
      simp only [List.foldl_cons] at hx
      by_cases hkw : hasSub kw.toList (lowerStr pageText).toList = true
      · rw [if_pos hkw] at hx
        rcases ih (acc ++ [titleCase kw]) hx with h1 | h1
        · rcases List.mem_append.mp h1 with h2 | h2
          · left; exact h2
          · right
            exact ⟨kw, List.mem_cons_self kw rest, by simpa using h2⟩
        · obtain ⟨kw', hkw', hx'⟩ := h1
          exact Or.inr ⟨kw', List.mem_cons_of_mem kw hkw', hx'⟩
      · rw [if_neg hkw] at hx
        rcases ih acc hx with h1 | h1
        · left; exact h1
        · obtain ⟨kw', hkw', hx'⟩ := h1
          exact Or.inr ⟨kw', List.mem_cons_of_mem kw hkw', hx'⟩
  rcases aux feature_keywords [] h with h1 | h1
  · exact absurd h1 (List.not_mem_nil x)
  · exact h1

lemma feature_keywords_titleCase_ne :
    ∀ kw ∈ feature_keywords, titleCase kw ≠ "" := by decide

lemma joinSemi_ne_empty {l : List String} (hne : l ≠ [])
    (hall : ∀ s ∈ l, s ≠ "") : joinSemi l ≠ "" := by
  cases l with
  | nil => exact absurd rfl hne
  | cons s rest =>
    cases rest with
    | nil => exact hall s (List.mem_singleton.mpr rfl)
    | cons y t =>
      show s ++ ";" ++ joinSemi (y :: t) ≠ ""
      apply str_ne_empty_of_length
      rw [String.length_append, String.length_append]
      have : (";" : String).length = 1 := rfl
      omega

/-- C5.  When a detail-stage enrichment is merged into a listing-stage
draft (non-empty draft name; the draft's price triple satisfies the
listing-stage invariant that an empty current price comes with empty
original price and discount; every description regex match contains a
non-whitespace character, as the source patterns force; URL resolution
against the base never yields an empty URL; `list(set(·))` enumerates
exactly the distinct elements), then: the name is overwritten exactly by
the rule "heading text strictly longer than the draft name, after
stripping"; every other field, when changed at all, is changed to a
non-empty detail-stage value — an empty or absent detail-stage extraction
never erases a populated listing-stage value — and the fields the detail
stage does not extract are untouched. -/
theorem detail_merge_rule (env : Env) (p : Product) (page : Page)
    (hname : p.product_name ≠ "")
    (hdraft : p.price_current = "" → p.price_original = "" ∧ p.discount_percentage = "")
    (hdescwf : ∀ ms ∈ page.descMatches, ∀ b ∈ ms, ∃ c ∈ b.toList, c.isWhitespace = false)
    (hurl : ∀ r, r ≠ "" → env.urljoin base_url r ≠ "")
    (hset : ∀ l, (env.pysetOrder l).Perm l.dedup) :
    ((enrich env p page).product_name =
      match page.h1Text with
      | some h =>
        if p.product_name.length < (stripChars h.toList).length
        then clean_text h else p.product_name
      | none => p.product_name) ∧
    ((enrich env p page).product_description ≠ p.product_description →
      (enrich env p page).product_description ≠ "") ∧
    ((enrich env p page).price_current ≠ p.price_current →
      (enrich env p page).price_current ≠ "") ∧
    ((enrich env p page).price_original ≠ p.price_original →
      (enrich env p page).price_original ≠ "") ∧
    ((enrich env p page).discount_percentage ≠ p.discount_percentage →
      (enrich env p page).discount_percentage ≠ "") ∧
    ((enrich env p page).product_image_url ≠ p.product_image_url →
      (enrich env p page).product_image_url ≠ "") ∧
    ((enrich env p page).ingredients ≠ p.ingredients →
      (enrich env p page).ingredients ≠ "") ∧
    ((enrich env p page).tags ≠ p.tags → (enrich env p page).tags ≠ "") ∧
    ((enrich env p page).sku_code ≠ p.sku_code → (enrich env p page).sku_code ≠ "") ∧
    ((enrich env p page).unit_size ≠ p.unit_size → (enrich env p page).unit_size ≠ "") ∧
    (enrich env p page).category = p.category ∧
    (enrich env p page).product_page_url = p.product_page_url ∧
    (enrich env p page).packaging_type = p.packaging_type ∧
    (enrich env p page).availability_status = p.availability_status ∧
    (enrich env p page).scraped_timestamp = p.scraped_timestamp := by
  refine ⟨?_, ?_, ?_, ?_, ?_, ?_, ?_, ?_, ?_, ?_, rfl, rfl, rfl, rfl, rfl⟩
  · show (match page.h1Text with
      | some h =>
        if (if p.product_name = "" then _ else p.product_name).length <
            (stripChars h.toList).length
        then clean_text h
        else (if p.product_name = "" then _ else p.product_name)
      | none => (if p.product_name = "" then _ else p.product_name)) = _
    rw [if_neg hname]
  · show (match pickDesc page.descMatches with
      | some d => d | none => p.product_description) ≠ p.product_description →
      (match pickDesc page.descMatches with
      | some d => d | none => p.product_description) ≠ ""
    cases hp : pickDesc page.descMatches with
    | none => intro h; exact absurd rfl h
    | some d =>
      intro _
      obtain ⟨ms, hms, b, hb, _, _, hd⟩ := pickDesc_sound hp
      obtain ⟨c, hc, hcw⟩ := hdescwf ms hms b hb
      rw [hd]
      exact clean_text_ne_empty hc hcw
  · show (if p.price_current = "" then extract_price_info page.pageText
        else (p.price_current, p.price_original, p.discount_percentage)).1 ≠
        p.price_current →
      (if p.price_current = "" then extract_price_info page.pageText
        else (p.price_current, p.price_original, p.discount_percentage)).1 ≠ ""
    by_cases hc : p.price_current = ""
    · rw [if_pos hc, hc]
      exact fun h => h
    · rw [if_neg hc]
      intro h; exact absurd rfl h
  · show (if p.price_current = "" then extract_price_info page.pageText
        else (p.price_current, p.price_original, p.discount_percentage)).2.1 ≠
        p.price_original →
      (if p.price_current = "" then extract_price_info page.pageText
        else (p.price_current, p.price_original, p.discount_percentage)).2.1 ≠ ""
    by_cases hc : p.price_current = ""
    · rw [if_pos hc, (hdraft hc).1]
      exact fun h => h
    · rw [if_neg hc]
      intro h; exact absurd rfl h
  · show (if p.price_current = "" then extract_price_info page.pageText
        else (p.price_current, p.price_original, p.discount_percentage)).2.2 ≠
        p.discount_percentage →
      (if p.price_current = "" then extract_price_info page.pageText
        else (p.price_current, p.price_original, p.discount_percentage)).2.2 ≠ ""
    by_cases hc : p.price_current = ""
    · rw [if_pos hc, (hdraft hc).2]
      exact fun h => h
    · rw [if_neg hc]
      intro h; exact absurd rfl h
  · show (match pickImage env page.images with
      | some s => s | none => p.product_image_url) ≠ p.product_image_url →
      (match pickImage env page.images with
      | some s => s | none => p.product_image_url) ≠ ""
    cases hp : pickImage env page.images with
    | none => intro h; exact absurd rfl h
    | some s =>
      intro _
      obtain ⟨r, hr, hs⟩ := pickImage_sound hp
      show s ≠ ""
      rw [hs]
      exact hurl r hr
  · show (match pickIng page.ingMatches with
      | some t => t | none => p.ingredients) ≠ p.ingredients →
      (match pickIng page.ingMatches with
      | some t => t | none => p.ingredients) ≠ ""
    cases hp : pickIng page.ingMatches with
    | none => intro h; exact absurd rfl h
    | some t =>
      intro _
      show t ≠ ""
      exact str_ne_empty_of_length (by have := pickIng_sound hp; omega)
  · show (if comp_keyword_tags page.pageText ≠ [] then
        joinSemi (env.pysetOrder (comp_keyword_tags page.pageText)) else p.tags) ≠
        p.tags →
      (if comp_keyword_tags page.pageText ≠ [] then
        joinSemi (env.pysetOrder (comp_keyword_tags page.pageText)) else p.tags) ≠ ""
    by_cases hk : comp_keyword_tags page.pageText ≠ []
    · rw [if_pos hk]
      intro _
      apply joinSemi_ne_empty
      · intro hnil
        have hperm := hset (comp_keyword_tags page.pageText)
        rw [hnil] at hperm
        have := hperm.length_eq
        simp only [List.length_nil] at this
        have hd : (comp_keyword_tags page.pageText).dedup = [] :=
          List.length_eq_zero.mp this.symm
        exact hk ((List.dedup_eq_nil _).mp hd)
      · intro s hs
        have hsd : s ∈ (comp_keyword_tags page.pageText).dedup :=
          (hset (comp_keyword_tags page.pageText)).subset hs
        have hsm : s ∈ comp_keyword_tags page.pageText := List.mem_dedup.mp hsd
        obtain ⟨kw, hkw, hx⟩ := comp_keyword_tags_shape hsm
        rw [hx]
        exact feature_keywords_titleCase_ne kw hkw
    · rw [if_neg hk]
      intro h; exact absurd rfl h
  · show (match skuSearch (env.urlPath p.product_page_url).toList with
      | some run => String.mk run | none => p.sku_code) ≠ p.sku_code →
      (match skuSearch (env.urlPath p.product_page_url).toList with
      | some run => String.mk run | none => p.sku_code) ≠ ""
    cases hp : skuSearch (env.urlPath p.product_page_url).toList with
    | none => intro h; exact absurd rfl h
    | some run =>
      intro _
      show String.mk run ≠ ""
      exact mk_ne_empty (skuSearch_sound hp)
  · show (if p.unit_size = "" then extract_unit_size_from page.unitMatches
        else p.unit_size) ≠ p.unit_size →
      (if p.unit_size = "" then extract_unit_size_from page.unitMatches
        else p.unit_size) ≠ ""
    by_cases hc : p.unit_size = ""
    · rw [if_pos hc, hc]
      exact fun h => h
    · rw [if_neg hc]
      intro h; exact absurd rfl h

/-- Listing draft of the C5 example: name populated, price empty. -/
def brownieDraft : Product := { product_name := "Brownie" }

/-- Detail page of the C5 example: no heading (empty detail-stage name) and
a page text whose price extraction yields `₹199`. -/
def browniePage : Page := { pageText := "₹199" }

/-- C5 witness: merging the listing draft with name `Brownie` and empty
price with a detail page that extracts no name and the price `₹199` keeps
the listing name and fills in the price. -/
theorem detail_merge_rule_witness :
    ("Brownie" : String) ≠ "" ∧
    (enrich envW brownieDraft browniePage).product_name = "Brownie" ∧
    (enrich envW brownieDraft browniePage).price_current = "₹199" ∧
    (enrich envW brownieDraft browniePage).product_description = "" := by
  have h := detail_merge_rule envW brownieDraft browniePage
    (by decide)
    (fun _ => ⟨rfl, rfl⟩)
    (by intro ms hms; exact absurd hms (List.not_mem_nil ms))
    (by
      intro r _
      apply str_ne_empty_of_length
      show 0 < ("https://www.hyperpure.com/" ++ r).length
      rw [String.length_append]
      have h26 : ("https://www.hyperpure.com/" : String).length = 26 := rfl
      omega)
    (fun l => List.Perm.refl l.dedup)
  exact ⟨by decide, h.1, by decide, by decide⟩

/-! ## Claim C6: packaging classification

Two cited implementations.  `HyperpurePerfectScraper.extract_perfect_product_details`
(lines 478–491) walks the insertion-ordered dict
`{'frozen': 'Frozen', 'fresh': 'Fresh', 'chilled': 'Chilled',
'ambient': 'Ambient', 'dry': 'Dry'}` over the lowercased full page text and
keeps the first hit, leaving the class unset otherwise.
`HyperpureComprehensiveScraper.extract_products_from_page` (lines 311–319)
instead tests only `frozen`/`freeze` and `fresh`/`dairy` against the
lowercased product name, then falls back to category defaults (`Chilled`
for the dairy categories, `Dry` for the staple categories). -/

/-- The ordered keyword table of the PERFECT scraper (lines 479–485). -/
def packaging_keywords : List (String × String) :=
  [("frozen", "Frozen"), ("fresh", "Fresh"), ("chilled", "Chilled"),
   ("ambient", "Ambient"), ("dry", "Dry")]

/-- First keyword of the table found in the lowercased text wins; absence
of every keyword leaves the class unset (the dataclass default `""`). -/
def firstKw : List (String × String) → List Char → String
  | [], _ => ""
  | (k, c) :: rest, lt => if hasSub k.toList lt then c else firstKw rest lt

/-- Packaging classification of the PERFECT scraper (lines 487–491). -/
def classify_perfect (fullText : String) : String :=
  firstKw packaging_keywords (lowerStr fullText).toList

/-- Categories defaulting to `Chilled` in the comprehensive scraper
(line 316). -/
def dairy_categories : List String :=
  ["Milk & Milk Powder", "Cheese", "Butter", "Paneer", "Cream", "Curd/Yogurt"]

/-- Categories defaulting to `Dry` in the comprehensive scraper
(line 318). -/
def dry_categories : List String :=
  ["Rice & Rice Products", "Atta, Maida, Sooji", "Salt & Sugar"]

/-- Packaging classification of the comprehensive scraper (lines 311–319):
keyword tests against the product name only, category defaults otherwise. -/
def classify_comprehensive (productName category : String) : String :=
  let nm := (lowerStr productName).toList
  if hasSub "frozen".toList nm || hasSub "freeze".toList nm then "Frozen"
  else if hasSub "fresh".toList nm || hasSub "dairy".toList nm then "Fresh"
  else if category ∈ dairy_categories then "Chilled"
  else if category ∈ dry_categories then "Dry"
  else ""

/-- C6 counterexample: the product name `"Chilled Basmati Rice 5 kg"` in
category `"Rice & Rice Products"` contains the keyword `chilled` and none
of the earlier table keywords, so by the claim the class must be
`Chilled`; the comprehensive scraper never tests `chilled` and applies the
category default `Dry`, overriding the in-text keyword. -/
theorem packaging_keyword_order_counterexample :
    hasSub "frozen".toList (lowerStr "Chilled Basmati Rice 5 kg").toList = false ∧
    hasSub "fresh".toList (lowerStr "Chilled Basmati Rice 5 kg").toList = false ∧
    hasSub "chilled".toList (lowerStr "Chilled Basmati Rice 5 kg").toList = true ∧
    classify_comprehensive "Chilled Basmati Rice 5 kg" "Rice & Rice Products" = "Dry" ∧
    ("Dry" : String) ≠ "Chilled" := by
  refine ⟨by decide, by decide, by decide, by decide, by decide⟩

lemma firstKw_first_match (lt : List Char) :
    ∀ (pre : List (String × String)) (k c : String) (post : List (String × String)),
      (∀ q ∈ pre, hasSub q.1.toList lt = false) → hasSub k.toList lt = true →
      firstKw (pre ++ (k, c) :: post) lt = c := by
  intro pre
  induction pre with
  | nil =>
    intro k c post _ hk
    simp only [List.nil_append, firstKw]
    rw [if_pos hk]
  | cons q pre' ih =>
    intro k c post hpre hk
    obtain ⟨q1, q2⟩ := q
    simp only [List.cons_append, firstKw]
    rw [if_neg (by
      rw [show hasSub q1.toList lt = false from hpre (q1, q2) (List.mem_cons_self _ _)]
      exact Bool.false_ne_true)]
    exact ih k c post (fun r hr => hpre r (List.mem_cons_of_mem _ hr)) hk

lemma firstKw_no_match (lt : List Char) :
    ∀ tab : List (String × String),
      (∀ q ∈ tab, hasSub q.1.toList lt = false) → firstKw tab lt = "" := by
  intro tab
  induction tab with
  | nil => intro _; rfl
  | cons q rest ih =>
    intro hall
    obtain ⟨q1, q2⟩ := q
    simp only [firstKw]
    rw [if_neg (by
      rw [show hasSub q1.toList lt = false from hall (q1, q2) (List.mem_cons_self _ _)]
      exact Bool.false_ne_true)]
    exact ih (fun r hr => hall r (List.mem_cons_of_mem _ hr))

/-- C6 amended.  Packaging classification is a deterministic function of
its inputs (both classifiers are pure functions of the text, respectively
of name and category).  In the PERFECT variant the keyword table is
consulted in the fixed order frozen, fresh, chilled, ambient, dry over the
lowercased page text, the first keyword present determines the class, and
absence of every keyword leaves the class unset, with no category default.
In the comprehensive variant only `frozen`/`freeze` and `fresh`/`dairy`
are tested as in-text keywords, against the product name, and the
category defaults (Chilled for dairy categories, Dry for staple
categories) apply exactly when neither of those keyword groups is present
— even when `chilled`, `ambient` or `dry` occurs in the text. -/
theorem packaging_classification_rule :
    (∀ (t : String) (pre : List (String × String)) (k c : String)
        (post : List (String × String)),
      packaging_keywords = pre ++ (k, c) :: post →
      (∀ q ∈ pre, hasSub q.1.toList (lowerStr t).toList = false) →
      hasSub k.toList (lowerStr t).toList = true →
      classify_perfect t = c) ∧
    (∀ t : String,
      (∀ q ∈ packaging_keywords, hasSub q.1.toList (lowerStr t).toList = false) →
      classify_perfect t = "") ∧
    (∀ name cat : String,
      hasSub "frozen".toList (lowerStr name).toList = false →
      hasSub "freeze".toList (lowerStr name).toList = false →
      hasSub "fresh".toList (lowerStr name).toList = false →
      hasSub "dairy".toList (lowerStr name).toList = false →
      cat ∈ dairy_categories →
      classify_comprehensive name cat = "Chilled") ∧
    (∀ name cat : String,
      hasSub "frozen".toList (lowerStr name).toList = false →
      hasSub "freeze".toList (lowerStr name).toList = false →
      hasSub "fresh".toList (lowerStr name).toList = false →
      hasSub "dairy".toList (lowerStr name).toList = false →
      cat ∉ dairy_categories → cat ∈ dry_categories →
      classify_comprehensive name cat = "Dry") := by
  refine ⟨?_, ?_, ?_, ?_⟩
  · intro t pre k c post htab hpre hk
    unfold classify_perfect
    rw [htab]
    exact firstKw_first_match _ pre k c post hpre hk
  · intro t hall
    exact firstKw_no_match _ packaging_keywords hall
  · intro name cat h1 h2 h3 h4 hcat
    show (if (hasSub "frozen".toList (lowerStr name).toList
            || hasSub "freeze".toList (lowerStr name).toList) = true then "Frozen"
        else if (hasSub "fresh".toList (lowerStr name).toList
            || hasSub "dairy".toList (lowerStr name).toList) = true then "Fresh"
        else if cat ∈ dairy_categories then "Chilled"
        else if cat ∈ dry_categories then "Dry"
        else "") = "Chilled"
    rw [h1, h2, h3, h4]
    simp only [Bool.or_self]
    rw [if_neg Bool.false_ne_true, if_neg Bool.false_ne_true, if_pos hcat]
  · intro name cat h1 h2 h3 h4 hnd hcat
    show (if (hasSub "frozen".toList (lowerStr name).toList
            || hasSub "freeze".toList (lowerStr name).toList) = true then "Frozen"
        else if (hasSub "fresh".toList (lowerStr name).toList
            || hasSub "dairy".toList (lowerStr name).toList) = true then "Fresh"
        else if cat ∈ dairy_categories then "Chilled"
        else if cat ∈ dry_categories then "Dry"
        else "") = "Dry"
    rw [h1, h2, h3, h4]
    simp only [Bool.or_self]
    rw [if_neg Bool.false_ne_true, if_neg Bool.false_ne_true, if_neg hnd, if_pos hcat]

/-- C6 amended witness: `"Keep frozen at -18C"` is classified Frozen by
the PERFECT table (first keyword), `"plain water"` is left unset, and the
name `"Paneer Cubes"` in category `"Paneer"` gets the dairy default
`Chilled` while `"Chilled Basmati Rice 5 kg"` in `"Rice & Rice Products"`
gets the staple default `Dry`. -/
theorem packaging_classification_rule_witness :
    classify_perfect "Keep frozen at -18C" = "Frozen" ∧
    classify_perfect "plain water" = "" ∧
    classify_comprehensive "Paneer Cubes" "Paneer" = "Chilled" ∧
    classify_comprehensive "Chilled Basmati Rice 5 kg" "Rice & Rice Products" = "Dry" := by
  refine ⟨?_, ?_, ?_, ?_⟩
  · exact packaging_classification_rule.1 "Keep frozen at -18C" []
      "frozen" "Frozen" [("fresh", "Fresh"), ("chilled", "Chilled"),
        ("ambient", "Ambient"), ("dry", "Dry")] rfl
      (by intro q hq; exact absurd hq (List.not_mem_nil q)) (by decide)
  · exact packaging_classification_rule.2.1 "plain water" (by decide)
  · exact packaging_classification_rule.2.2.1 "Paneer Cubes" "Paneer"
      (by decide) (by decide) (by decide) (by decide) (by decide)
  · exact packaging_classification_rule.2.2.2 "Chilled Basmati Rice 5 kg"
      "Rice & Rice Products"
      (by decide) (by decide) (by decide) (by decide) (by decide) (by decide)

/-! ## Claim C7: tag aggregation

`HyperpurePerfectScraper.extract_perfect_product_details` (lines 519–553)
collects badge/label texts in page order, skipping short texts and
duplicates, then appends the content-analysis tags (Premium, Handcrafted,
Imported, the packaging class) that are not already present.
`HyperpureComprehensiveScraper.scrape_product_details` (lines 399–408)
collects keyword tags in vocabulary order but emits
`";".join(list(set(tags)))` — the output order is the iteration order of a
CPython `set` of strings, which is hash-dependent (and hash-randomized per
process), not the detection order.  The set order is therefore a model
parameter; the claim has to hold for every order the runtime can
realize, and a reversal is realizable. -/

/-- Badge/label tag collection of the PERFECT scraper (lines 520–537):
texts in page order, kept when non-empty, longer than 2 characters and not
already collected. -/
def badge_tags (badgeTexts : List String) : List String :=
  badgeTexts.foldl
    (fun acc t => if t ≠ "" ∧ 2 < t.length ∧ t ∉ acc then acc ++ [t] else acc) []

/-- Content-analysis tags of the PERFECT scraper (lines 540–548), in fixed
order: Premium, Handcrafted, Imported, then the packaging class when set. -/
def content_tags_of (fullText : String) : List String :=
  let lt := (lowerStr fullText).toList
  let packaging := classify_perfect fullText
  (if hasSub "premium".toList lt then ["Premium"] else []) ++
  (if hasSub "handcrafted".toList lt || hasSub "hand-crafted".toList lt
    then ["Handcrafted"] else []) ++
  (if hasSub "imported".toList lt then ["Imported"] else []) ++
  (if packaging ≠ "" then [packaging] else [])

/-- Emitted tag list of the PERFECT scraper (lines 527–550): badge tags
followed by the content tags not already present. -/
def perfect_tags (badgeTexts : List String) (fullText : String) : List String :=
  let tags := badge_tags badgeTexts
  tags ++ (content_tags_of fullText).filter (fun t => decide (t ∉ tags))

/-- Emitted tag list of the comprehensive scraper (line 408):
`list(set(tags))`, with the set iteration order supplied externally. -/
def comp_tags (ord : List String → List String) (pageText : String) : List String :=
  ord (comp_keyword_tags pageText)

/-- C7 counterexample: on a page containing `premium` and then `imported`,
the keyword tags are detected in the order Premium, Imported; under a set
iteration order that enumerates the two strings in the opposite order — a
realizable CPython behavior, since string hashing is randomized per
process — the comprehensive scraper emits them in reverse of first
detection, contradicting the claimed order preservation. -/
theorem tags_order_counterexample :
    comp_keyword_tags "premium imported cheese" = ["Premium", "Imported"] ∧
    comp_tags List.reverse "premium imported cheese" = ["Imported", "Premium"] ∧
    (["Imported", "Premium"] : List String) ≠ ["Premium", "Imported"] := by
  refine ⟨by decide, by decide, by decide⟩

lemma badge_tags_foldl_nodup (texts : List String) :
    ∀ acc : List String, acc.Nodup →
      (texts.foldl
        (fun acc t => if t ≠ "" ∧ 2 < t.length ∧ t ∉ acc then acc ++ [t] else acc)
        acc).Nodup := by
  induction texts with
  | nil => intro acc h; exact h
  | cons t rest ih =>
    intro acc hacc
    simp only [List.foldl_cons]
    by_cases hc : t ≠ "" ∧ 2 < t.length ∧ t ∉ acc
    · rw [if_pos hc]
      refine ih _ (hacc.append (List.nodup_singleton t) ?_)
      intro a ha hb
      rw [List.mem_singleton.mp hb] at ha
      exact hc.2.2 ha
    · rw [if_neg hc]
      exact ih acc hacc

lemma badge_tags_nodup (badgeTexts : List String) : (badge_tags badgeTexts).Nodup :=
  badge_tags_foldl_nodup badgeTexts [] List.nodup_nil

lemma badge_tags_foldl_sublist (texts : List String) :
    ∀ acc : List String,
      texts.foldl
        (fun acc t => if t ≠ "" ∧ 2 < t.length ∧ t ∉ acc then acc ++ [t] else acc)
        acc |>.Sublist (acc ++ texts) := by
  induction texts with
  | nil => intro acc; simp
  | cons t rest ih =>
    intro acc
    simp only [List.foldl_cons]
    by_cases hc : t ≠ "" ∧ 2 < t.length ∧ t ∉ acc
    · rw [if_pos hc]
      have := ih (acc ++ [t])
      rwa [List.append_assoc, List.singleton_append] at this
    · rw [if_neg hc]
      exact (ih acc).trans
        ((List.sublist_cons_self t rest).append_left acc)

lemma badge_tags_sublist (badgeTexts : List String) :
    (badge_tags badgeTexts).Sublist badgeTexts := by
  have := badge_tags_foldl_sublist badgeTexts []
  rwa [List.nil_append] at this

lemma classify_perfect_cases (t : String) :
    classify_perfect t = "Frozen" ∨ classify_perfect t = "Fresh" ∨
    classify_perfect t = "Chilled" ∨ classify_perfect t = "Ambient" ∨
    classify_perfect t = "Dry" ∨ classify_perfect t = "" := by
  unfold classify_perfect
  simp only [packaging_keywords, firstKw]
  split_ifs <;> simp

lemma content_tags_nodup (t : String) : (content_tags_of t).Nodup := by
  simp only [content_tags_of]
  rcases classify_perfect_cases t with h | h | h | h | h | h <;>
    rw [h] <;> split_ifs <;> decide

/-- C7 amended.  The emitted tag list never contains a string twice, in
both variants (for the comprehensive variant, under the sole assumption
that `list(set(·))` enumerates exactly the distinct elements, in whatever
order).  First-detection order is guaranteed only by the PERFECT variant:
its tag list is a subsequence of the detection stream — badge texts in
page order followed by the fixed-order content tags; in the comprehensive
variant the emitted order is the set iteration order, which need not be
the detection order. -/
theorem tags_dedup_and_order (badgeTexts : List String) (fullText : String)
    (ord : List String → List String) (pageText : String)
    (hord : ∀ l, (ord l).Perm l.dedup) :
    (perfect_tags badgeTexts fullText).Nodup ∧
    (perfect_tags badgeTexts fullText).Sublist
      (badgeTexts ++ content_tags_of fullText) ∧
    (comp_tags ord pageText).Nodup := by
  refine ⟨?_, ?_, ?_⟩
  · show ((badge_tags badgeTexts) ++
      (content_tags_of fullText).filter
        (fun t => decide (t ∉ badge_tags badgeTexts))).Nodup
    refine (badge_tags_nodup badgeTexts).append
      ((content_tags_nodup fullText).filter _) ?_
    intro a ha hb
    have := (List.mem_filter.mp hb).2
    exact (of_decide_eq_true this) ha
  · show ((badge_tags badgeTexts) ++
      (content_tags_of fullText).filter
        (fun t => decide (t ∉ badge_tags badgeTexts))).Sublist _
    exact (badge_tags_sublist badgeTexts).append (List.filter_sublist _)
  · show (ord (comp_keyword_tags pageText)).Nodup
    exact ((comp_keyword_tags pageText).nodup_dedup).perm
      (hord (comp_keyword_tags pageText)).symm

/-- C7 amended witness: badges `Gluten Free`, `Premium` followed by content
tags on a premium frozen page give `Gluten Free; Premium; Frozen` — no
duplicate, in detection order — and the deduplicating order on the
comprehensive keyword tags yields a duplicate-free list. -/
theorem tags_dedup_and_order_witness :
    perfect_tags ["Gluten Free", "Premium"] "premium frozen snack" =
      ["Gluten Free", "Premium", "Frozen"] ∧
    ((perfect_tags ["Gluten Free", "Premium"] "premium frozen snack").Nodup ∧
      (perfect_tags ["Gluten Free", "Premium"] "premium frozen snack").Sublist
        (["Gluten Free", "Premium"] ++ content_tags_of "premium frozen snack") ∧
      (comp_tags List.dedup "premium imported cheese").Nodup) := by
  constructor
  · decide
  · exact tags_dedup_and_order ["Gluten Free", "Premium"] "premium frozen snack"
      List.dedup "premium imported cheese" (fun l => List.Perm.refl l.dedup)

/-! ## Claim C8: partial flush of the sink on operator interrupt

`HyperpureComprehensiveScraper.save_to_csv` (lines 469–493) writes the
fixed header row and one row per product of `self.products`, in insertion
order, and writes nothing at all when `self.products` is empty.  The
`main` driver (lines 496–543) catches `KeyboardInterrupt` and saves
`scraper.products` to a distinctly named `..._partial_...` file — but
`scrape_all_products` (lines 425–467) accumulates the assembled entries in
the local variable `all_products` and assigns `self.products = all_products`
only after the whole category loop has finished (line 465), so an
interrupt raised mid-run propagates out of `scrape_all_products` (the
inner `except Exception` does not catch `KeyboardInterrupt`) while
`self.products` is still the empty list from `__init__`. -/

/-- The fixed CSV column order of `save_to_csv` (lines 475–480). -/
def fieldnames : List String :=
  ["product_name", "category", "subcategory", "price_current", "price_original",
   "discount_percentage", "product_description", "product_image_url",
   "product_page_url", "availability_status", "brand_name", "unit_size",
   "packaging_type", "nutritional_info", "ingredients", "product_id",
   "sku_code", "rating", "review_count", "tags", "scraped_timestamp"]

/-- `Product.to_dict` (lines 67–91) read off in the column order. -/
def to_dict_row (p : Product) : List String :=
  [p.product_name, p.category, p.subcategory, p.price_current, p.price_original,
   p.discount_percentage, p.product_description, p.product_image_url,
   p.product_page_url, p.availability_status, p.brand_name, p.unit_size,
   p.packaging_type, p.nutritional_info, p.ingredients, p.product_id,
   p.sku_code, p.rating, p.review_count, p.tags, p.scraped_timestamp]

/-- `save_to_csv` (lines 469–493): no file is written for an empty product
list (the method logs and returns); otherwise the written file is the
header row followed by one row per product in insertion order. -/
def save_to_csv (products : List Product) : Option (List (List String)) :=
  if products.isEmpty then none
  else some (fieldnames :: products.map to_dict_row)

/-- Value of `self.products` when the run is interrupted after `completed`
of the planned entries have been assembled: `scrape_all_products` appends
assembled entries to its local `all_products` and executes
`self.products = all_products` only after the loop over all planned
entries completes, so an interrupt strictly before completion leaves the
field at its initial `[]`. -/
def selfProductsOnInterrupt (planned : List Product) (completed : ℕ) : List Product :=
  if planned.length ≤ completed then planned else []

/-- The `KeyboardInterrupt` handler of `main` (lines 532–539): save
`scraper.products` to the `..._partial_...` file only when it is
non-empty; the result is the content of the partial file, `none` when no
file is written. -/
def mainOnInterrupt (planned : List Product) (completed : ℕ) : Option (List (List String)) :=
  let sp := selfProductsOnInterrupt planned completed
  if sp.isEmpty then none else save_to_csv sp

/-- Sample entries for the interrupt scenario. -/
def entryA : Product := { product_name := "Walnut Brownie", product_page_url := "/in/a" }

/-- Second sample entry for the interrupt scenario. -/
def entryB : Product := { product_name := "Paneer", product_page_url := "/in/b" }

/-- C8 evaluated at the failing input: interrupting after 1 of 2 planned
entries has been assembled persists nothing — `mainOnInterrupt` yields no
file because `self.products` was never assigned — whereas the claim
requires the header row followed by exactly the 1 assembled row. -/
theorem partial_flush_bug :
    mainOnInterrupt [entryA, entryB] 1 = none ∧
    some (fieldnames :: [to_dict_row entryA]) ≠
      (none : Option (List (List String))) ∧
    (save_to_csv [entryA] = some (fieldnames :: [to_dict_row entryA])) := by
  refine ⟨rfl, by simp, rfl⟩

/-! ## Claim C9: no nameless record is persisted

`HyperpurePerfectScraper.scrape_all_perfect_products` (lines 618–629)
appends an extracted product to `self.products` only under
`if perfect_product and perfect_product.product_name:`, and
`HyperpureDetailedScraper.scrape_all_detailed_products` (lines 597–603)
guards with `if detailed_product.product_name:` likewise, so a record
whose name extraction produced an empty name at every stage never reaches
the persisted collection. -/

/-- The `PerfectProduct` dataclass (lines 42–86), trimmed to the fields
the modeled control flow reads or writes; the remaining fields are further
independent string fields (specifications, instructions, ratings) that no
claim examines. -/
structure PerfectProduct where
  product_name : String := ""
  category : String := ""
  price_current : String := ""
  price_original : String := ""
  discount_percentage : String := ""
  product_page_url : String := ""
  packaging_type : String := ""
  tags : String := ""
  scraped_timestamp : String := ""
deriving DecidableEq

/-- The collection loop of `scrape_all_perfect_products` (lines 618–637):
`extractDetails` stands for `extract_perfect_product_details`, which
returns `None` on fetch or extraction failure; a product is appended only
when extraction succeeded and its name is non-empty (Python truthiness of
`perfect_product and perfect_product.product_name`). -/
def scrape_all_perfect_products
    (extractDetails : String → Option PerfectProduct)
    (productUrls : List String) : List PerfectProduct :=
  productUrls.foldl
    (fun acc url =>
      match extractDetails url with
      | some q => if q.product_name ≠ "" then acc ++ [q] else acc
      | none => acc) []

lemma scrape_all_perfect_aux (extractDetails : String → Option PerfectProduct) :
    ∀ (urls : List String) (acc : List PerfectProduct),
      (∀ x ∈ acc, x.product_name ≠ "") →
      ∀ q ∈ urls.foldl
        (fun acc url =>
          match extractDetails url with
          | some q => if q.product_name ≠ "" then acc ++ [q] else acc
          | none => acc) acc,
        q.product_name ≠ "" := by
  intro urls
  induction urls with
  | nil => intro acc hacc q hq; exact hacc q hq
  | cons url rest ih =>
    intro acc hacc q hq
    simp only [List.foldl_cons] at hq
    cases hx : extractDetails url with
    | none =>
      rw [hx] at hq
      exact ih acc hacc q hq
    | some r =>
      rw [hx] at hq
      have hq' : q ∈ rest.foldl
          (fun acc url =>
            match extractDetails url with
            | some q => if q.product_name ≠ "" then acc ++ [q] else acc
            | none => acc)
          (if r.product_name ≠ "" then acc ++ [r] else acc) := hq
      by_cases hr : r.product_name ≠ ""
      · rw [if_pos hr] at hq'
        refine ih (acc ++ [r]) ?_ q hq'
        intro x hxm
        rcases List.mem_append.mp hxm with h | h
        · exact hacc x h
        · rw [List.mem_singleton.mp h]
          exact hr
      · rw [if_neg hr] at hq'
        exact ih acc hacc q hq'

/-- C9.  Every record in the persisted collection produced by the
scrape-all loop has a non-empty product name: a record whose name
extraction produced an empty name (or whose extraction failed altogether)
is never appended. -/
theorem persisted_records_named (extractDetails : String → Option PerfectProduct)
    (productUrls : List String) (q : PerfectProduct)
    (hq : q ∈ scrape_all_perfect_products extractDetails productUrls) :
    q.product_name ≠ "" := by
  exact scrape_all_perfect_aux extractDetails productUrls []
    (fun x hx => absurd hx (List.not_mem_nil x)) q hq

/-- Extraction behavior for the C9 witness: one URL yields a named
product, one a nameless draft, one fails. -/
def extractW : String → Option PerfectProduct :=
  fun url =>
    if url = "/in/a" then some { product_name := "Walnut Brownie 80 gm" }
    else if url = "/in/b" then some { product_name := "" }
    else none

/-- C9 witness: over the three sample URLs only the named product is
persisted, and applying the theorem to it yields its non-empty name. -/
theorem persisted_records_named_witness :
    scrape_all_perfect_products extractW ["/in/a", "/in/b", "/in/c"] =
      [{ product_name := "Walnut Brownie 80 gm" }] ∧
    ({ product_name := "Walnut Brownie 80 gm" } : PerfectProduct) ∈
      scrape_all_perfect_products extractW ["/in/a", "/in/b", "/in/c"] ∧
    ({ product_name := "Walnut Brownie 80 gm" } : PerfectProduct).product_name ≠ "" := by
  have hmem : ({ product_name := "Walnut Brownie 80 gm" } : PerfectProduct) ∈
      scrape_all_perfect_products extractW ["/in/a", "/in/b", "/in/c"] := by decide
  exact ⟨by decide, hmem,
    persisted_records_named extractW ["/in/a", "/in/b", "/in/c"] _ hmem⟩

/-- Fetch behavior that fails on attempts 0 and 1 and succeeds on 2. -/
def fetchTwoFailures : ℕ → Option ℕ := fun k => if k < 2 then none else some 7

/-- C3 witness: with the default `max_retries = 3`, a fetch that fails
twice and succeeds on the third attempt returns the successful content
using exactly 3 attempts, and a fetch failing on all attempts returns
`none` after exactly 3 attempts. -/
theorem safe_request_retry_contract_witness :
    safe_request fetchTwoFailures 3 = some 7 ∧
    attemptsUsed fetchTwoFailures 3 = 3 ∧
    safe_request (fun _ => (none : Option ℕ)) 3 = none := by
  have h := (safe_request_retry_contract fetchTwoFailures 3 (by omega)).2.1 2
    (by omega)
    (by intro j hj; simp only [fetchTwoFailures]; rw [if_pos hj])
    (by simp [fetchTwoFailures])
  have hfail := (safe_request_retry_contract (fun _ => (none : Option ℕ)) 3
    (by omega)).2.2 (by intro j _; rfl)
  refine ⟨?_, ?_, hfail.1⟩
  · rw [h.1]; rfl
  · exact h.2

end Datascraper
